import Mathlib

/-!
Verification of the percolation trace decoder and frame-reconstruction engine
(`read.py`) against its specification.

The script replays a recorded percolation growth process.  The embedding below
translates the pure data transformations of the script: bond-segment geometry
and the cumulative bond reveal (`init`/`update`), the per-site color/size
mapper, the top-K series slicing, and the binary trace decoding
(`load_percolation`).  Parts of the repository that the spec describes but
that are absent from the current rewrite of the script (the interleaved and
split on-disk encodings, the growth pulse tracker) are modelled from the
spec's words; their doc comments say so explicitly.
-/

namespace Percolation

/-! ## Bonds and their rendered geometry

`read.py` stores each bond as a record `(direction : u1, row : u4, col : u4)`
(`bonds_dtype`, line 31).  `animate_percolation` (lines 78-96) renders a bond
with `direction == 1` as the segment `[(c, r), (c + 1, r)]` in plot
coordinates `(x, y) = (col, row)`, and any other direction as the segment
`[(c, r), (c, r + 1)]`. -/

structure RawBond where
  direction : ℕ
  row : ℕ
  col : ℕ
deriving DecidableEq, Repr

/-- Plot coordinates of the lattice site at `(row, col)`: the x axis is the
column, the y axis is the row. -/
def siteCoord (row col : ℕ) : ℕ × ℕ := (col, row)

/-- The rendered segment of one bond, mirroring the `horizontal_mask`
construction of `bond_segments` (lines 78-96 of `read.py`). -/
def bondSegment (b : RawBond) : (ℕ × ℕ) × (ℕ × ℕ) :=
  if b.direction = 1 then ((b.col, b.row), (b.col + 1, b.row))
  else ((b.col, b.row), (b.col, b.row + 1))

/-- All rendered bond segments, in recorded bond order. -/
def bondSegments (bonds : List RawBond) : List ((ℕ × ℕ) × (ℕ × ℕ)) :=
  bonds.map bondSegment

/-- A bond of the Normalized Trace Model: the direction byte has been
interpreted (`1` means horizontal, everything else vertical). -/
structure NBond where
  horizontal : Bool
  row : ℕ
  col : ℕ
deriving DecidableEq, Repr

/-- Normalization of a raw bond record, interpreting the direction byte the
way the renderer does (`bonds["direction"] == 1`). -/
def normBond (b : RawBond) : NBond :=
  ⟨b.direction == 1, b.row, b.col⟩

/-! ## Bond reveal (`init` lines 147-148, `update` lines 160-161)

`init` sets the line collection to the empty segment list; `update frame`
overwrites it with `bond_segments[:frame]` whenever `frame > 0` and leaves it
untouched at `frame = 0`.  An animation run is `init` followed by
`update 0, update 1, ...`, which we replay as a state recursion. -/

/-- Segment state established by `init` (line 148). -/
def initSegments : List ((ℕ × ℕ) × (ℕ × ℕ)) := []

/-- Segment state transition performed by `update frame` (lines 160-161). -/
def updateSegments (bonds : List RawBond) (prev : List ((ℕ × ℕ) × (ℕ × ℕ)))
    (frame : ℕ) : List ((ℕ × ℕ) × (ℕ × ℕ)) :=
  if 0 < frame then (bondSegments bonds).take frame else prev

/-- Segment state displayed at frame `t` of a run started by `init`. -/
def segmentsAt (bonds : List RawBond) : ℕ → List ((ℕ × ℕ) × (ℕ × ℕ))
  | 0 => updateSegments bonds initSegments 0
  | t + 1 => updateSegments bonds (segmentsAt bonds t) (t + 1)

theorem segmentsAt_eq_take (bonds : List RawBond) (t : ℕ) :
    segmentsAt bonds t = (bondSegments bonds).take t := by
  cases t with
  | zero => simp [segmentsAt, updateSegments, initSegments]
  | succ n => simp [segmentsAt, updateSegments]

/-! ## Top-K series (`update` lines 199-202)

`update frame` sets line `i` to the data
`(steps[:frame+1], top_sizes[:frame+1, i])`. -/

/-- The y-data handed to line `k` at frame `frame`: column `k` of the first
`frame + 1` rows of `top_sizes` (line 202 of `read.py`). -/
def lineData (topSizes : List (List ℕ)) (frame k : ℕ) : List ℕ :=
  (topSizes.take (frame + 1)).map (fun row => row.getD k 0)

theorem take_map_getD {α β : Type} (f : α → β) (d : α) :
    ∀ (l : List α) (n : ℕ), n ≤ l.length →
      (l.take n).map f = (List.range n).map (fun j => f (l.getD j d))
  | _, 0, _ => by simp
  | [], n + 1, h => by simp at h
  | a :: l, n + 1, h => by
    rw [List.range_succ_eq_map]
    simp only [List.take_succ_cons, List.map_cons, List.getD_cons_zero, List.map_map]
    refine congrArg (f a :: ·) ?_
    rw [take_map_getD f d l n (by simpa using h)]
    refine List.map_congr_left ?_
    intro j hj
    simp [List.getD_cons_succ]

/-- C1 helper: the data of line `k` at frame `t` lists `top_sizes[j][k]` for
`j = 0, ..., t`. -/
theorem lineData_eq_range (topSizes : List (List ℕ)) (T t k : ℕ)
    (hT : topSizes.length = T) (ht : t < T) :
    lineData topSizes t k =
      (List.range (t + 1)).map (fun j => (topSizes.getD j []).getD k 0) := by
  rw [lineData, take_map_getD (fun row => row.getD k 0) [] topSizes (t + 1) (by omega)]

/-- C1: for every step index `t` in `[0, T)`, the bonds revealed at frame `t`
are exactly the ordered prefix of the first `t` recorded bonds, so frame `0`
reveals no bonds and the revealed list at frame `t` has exactly `t`
elements. -/
theorem c1_bond_reveal (bonds : List RawBond) (T t : ℕ)
    (hb : bonds.length = T - 1) (hT : 1 ≤ T) (ht : t < T) :
    segmentsAt bonds t = bondSegments (bonds.take t) ∧
      (segmentsAt bonds t).length = t ∧
      segmentsAt bonds 0 = [] := by
  have hlen : t ≤ bonds.length := by omega
  refine ⟨?_, ?_, ?_⟩
  · rw [segmentsAt_eq_take, bondSegments, bondSegments, List.map_take]
  · rw [segmentsAt_eq_take]
    simp [bondSegments]
    omega
  · rw [segmentsAt_eq_take]
    simp

/-- C1 witness: the concrete two-bond trace of the spec's test scenario,
replayed to frame 2. -/
theorem c1_bond_reveal_witness :
    segmentsAt [⟨1, 0, 0⟩, ⟨0, 1, 0⟩] 2 =
        bondSegments (List.take 2 [⟨1, 0, 0⟩, ⟨0, 1, 0⟩]) ∧
      (segmentsAt [⟨1, 0, 0⟩, ⟨0, 1, 0⟩] 2).length = 2 ∧
      segmentsAt [⟨1, 0, 0⟩, ⟨0, 1, 0⟩] 0 = [] :=
  c1_bond_reveal [⟨1, 0, 0⟩, ⟨0, 1, 0⟩] 3 2 (by decide) (by decide) (by decide)

/-- C4: a bond whose direction byte equals `1` is rendered as the segment
joining site `(row, col)` to site `(row, col + 1)`, and a bond with any other
direction byte as the segment joining `(row, col)` to `(row + 1, col)`; the
normalizer marks exactly the direction-1 bonds as horizontal. -/
theorem c4_bond_geometry (b : RawBond) :
    bondSegment b =
        (if b.direction = 1 then (siteCoord b.row b.col, siteCoord b.row (b.col + 1))
          else (siteCoord b.row b.col, siteCoord (b.row + 1) b.col)) ∧
      ((normBond b).horizontal = true ↔ b.direction = 1) := by
  constructor
  · by_cases h : b.direction = 1 <;> simp [bondSegment, siteCoord, h]
  · simp [normBond]

/-- C8: at frame `t < T`, the series for rank `k < K` is exactly the
unmodified prefix `top_sizes[0][k], ..., top_sizes[t][k]`, of length
`t + 1`. -/
theorem c8_topk_series (topSizes : List (List ℕ)) (T K t k : ℕ)
    (hT : topSizes.length = T) (_hrow : ∀ r ∈ topSizes, r.length = K)
    (ht : t < T) (_hk : k < K) :
    lineData topSizes t k =
        (List.range (t + 1)).map (fun j => (topSizes.getD j []).getD k 0) ∧
      (lineData topSizes t k).length = t + 1 := by
  refine ⟨lineData_eq_range topSizes T t k hT ht, ?_⟩
  rw [lineData]
  simp
  omega

/-- C8 witness: the spec's concrete scenario `top_sizes = [[1,1],[2,1],[2,2]]`
with `T = 3`, `K = 2`, evaluated at frame `t = 2`, rank `k = 1`. -/
theorem c8_topk_series_witness :
    lineData [[1, 1], [2, 1], [2, 2]] 2 1 =
        (List.range 3).map
          (fun j => (List.getD [[1, 1], [2, 1], [2, 2]] j []).getD 1 0) ∧
      (lineData [[1, 1], [2, 1], [2, 2]] 2 1).length = 3 :=
  c8_topk_series [[1, 1], [2, 1], [2, 2]] 3 2 2 1 (by decide) (by decide)
    (by decide) (by decide)

/-! ## Color/size mapper (`update` lines 157-195)

Per frame, `update` partitions sites by `state_sizes == 1`, fills every site
with the muted color `#E5E5E5` at opacity `0.5` and the marker size
`base_node_size`, and then overwrites the connected sites: with
`max_size = state_sizes[connected_mask].max()` and
`ratio = size / max_size`, the color is `custom_cmap(ratio ** 0.7)` with
alpha `0.5 + 0.5 * ratio`, and the marker size is
`base_node_size * (0.5 + 0.5 * ratio ** 0.5)`.  The colormap lookup
`custom_cmap` is a fixed matplotlib object built once from a constant color
list; its interpolation is external rendering machinery, so the embedding
takes it as an arbitrary fixed function `cmap`.  `x ** 0.5` on the
nonnegative ratios is `Real.sqrt`. -/

structure RGBA where
  r : ℝ
  g : ℝ
  b : ℝ
  a : ℝ

/-- The fixed color of an unconnected site: `to_rgb("#E5E5E5")` is
`(229/255, 229/255, 229/255)`, used with opacity `0.5` (lines 167-170). -/
noncomputable def unconnectedRGBA : RGBA :=
  ⟨229 / 255, 229 / 255, 229 / 255, 1 / 2⟩

/-- `base_node_size = np.clip(800 / L, 5, 50)` (line 70). -/
noncomputable def baseNodeSize (L : ℕ) : ℝ :=
  min (max (800 / (L : ℝ)) 5) 50

/-- `state_sizes[connected_mask].max()`: the largest cluster size among the
sites whose size is not `1` (line 175), `0` when no site is connected (in the
script that case is excluded by the `np.any(connected_mask)` guard, so the
value is never used there). -/
def maxConnected (sizes : List ℕ) : ℕ :=
  (sizes.filter (fun s => s != 1)).foldr max 0

/-- Color of one site (lines 163-187). -/
noncomputable def siteColor (cmap : ℝ → ℝ × ℝ × ℝ) (sizes : List ℕ) (s : ℕ) :
    RGBA :=
  if s = 1 then unconnectedRGBA
  else
    ⟨(cmap (((s : ℝ) / (maxConnected sizes : ℝ)) ^ (0.7 : ℝ))).1,
      (cmap (((s : ℝ) / (maxConnected sizes : ℝ)) ^ (0.7 : ℝ))).2.1,
      (cmap (((s : ℝ) / (maxConnected sizes : ℝ)) ^ (0.7 : ℝ))).2.2,
      1 / 2 + 1 / 2 * ((s : ℝ) / (maxConnected sizes : ℝ))⟩

/-- Marker size of one site (lines 171 and 189-191). -/
noncomputable def siteSize (L : ℕ) (sizes : List ℕ) (s : ℕ) : ℝ :=
  if s = 1 then baseNodeSize L
  else
    baseNodeSize L *
      (1 / 2 + 1 / 2 * Real.sqrt ((s : ℝ) / (maxConnected sizes : ℝ)))

/-- The `all_colors` array of `update` as a function of the frame sizes. -/
noncomputable def mapperColors (cmap : ℝ → ℝ × ℝ × ℝ) (sizes : List ℕ) :
    List RGBA :=
  sizes.map (siteColor cmap sizes)

/-- The `node_sizes` array of `update` as a function of the frame sizes. -/
noncomputable def mapperSizes (L : ℕ) (sizes : List ℕ) : List ℝ :=
  sizes.map (siteSize L sizes)

/-- The color/size mapper: frame sizes to per-site colors and marker sizes. -/
noncomputable def mapper (cmap : ℝ → ℝ × ℝ × ℝ) (L : ℕ) (sizes : List ℕ) :
    List RGBA × List ℝ :=
  (mapperColors cmap sizes, mapperSizes L sizes)

/-- A concrete stand-in colormap used only to instantiate witnesses. -/
def constCmap : ℝ → ℝ × ℝ × ℝ := fun _ => (0, 0, 0)

theorem le_foldr_max {a : ℕ} : ∀ {l : List ℕ}, a ∈ l → a ≤ l.foldr max 0 := by
  intro l
  induction l with
  | nil => intro h; cases h
  | cons b t ih =>
    intro h
    rcases List.mem_cons.mp h with h | h
    · subst h; exact le_max_left _ _
    · exact le_trans (ih h) (le_max_right _ _)

theorem mem_le_maxConnected {sizes : List ℕ} {s : ℕ} (hs : s ∈ sizes)
    (h1 : s ≠ 1) : s ≤ maxConnected sizes := by
  refine le_foldr_max (List.mem_filter.mpr ⟨hs, ?_⟩)
  simpa using h1

theorem baseNodeSize_ge_five (L : ℕ) : (5 : ℝ) ≤ baseNodeSize L := by
  rw [baseNodeSize]
  exact le_min (le_trans (by norm_num) (le_max_right _ _)) (by norm_num)

theorem baseNodeSize_pos (L : ℕ) : (0 : ℝ) < baseNodeSize L :=
  lt_of_lt_of_le (by norm_num) (baseNodeSize_ge_five L)

theorem map_const_replicate {α β : Type} (l : List α) (b : β) :
    l.map (fun _ => b) = List.replicate l.length b := by
  induction l with
  | nil => rfl
  | cons a t ih => simp [ih, List.replicate_succ]

/-- C5: a site whose cluster size equals `1` always receives the fixed muted
color `#E5E5E5` at opacity `0.5` and the fixed base marker size, whatever the
frame and whatever the sizes of the other sites. -/
theorem c5_unconnected_fixed (cmap : ℝ → ℝ × ℝ × ℝ) (L : ℕ)
    (sizes : List ℕ) (i : ℕ) (hi : i < sizes.length)
    (h1 : sizes.getD i 0 = 1) :
    (mapperColors cmap sizes).getD i ⟨0, 0, 0, 0⟩ = unconnectedRGBA ∧
      (mapperSizes L sizes).getD i 0 = baseNodeSize L := by
  have hi1 : i < (mapperColors cmap sizes).length := by
    simpa [mapperColors] using hi
  have hi2 : i < (mapperSizes L sizes).length := by
    simpa [mapperSizes] using hi
  rw [List.getD_eq_getElem _ _ hi1, List.getD_eq_getElem _ _ hi2,
    List.getD_eq_getElem _ _ hi] at *
  constructor
  · simp only [mapperColors, List.getElem_map, h1, siteColor, if_pos]
  · simp only [mapperSizes, List.getElem_map, h1, siteSize, if_pos]

/-- C5 witness: in the frame `[2, 2, 1, 1]` the third site (size `1`) is
rendered with the fixed unconnected color and base size. -/
theorem c5_unconnected_fixed_witness :
    (mapperColors constCmap [2, 2, 1, 1]).getD 2 ⟨0, 0, 0, 0⟩ =
        unconnectedRGBA ∧
      (mapperSizes 2 [2, 2, 1, 1]).getD 2 0 = baseNodeSize 2 :=
  c5_unconnected_fixed constCmap 2 [2, 2, 1, 1] 2 (by decide) (by decide)

/-- C6: on an input where every site has size `1` there is no connected site,
the guarded normalization is skipped, and the mapper returns well-defined
output with every site rendered as unconnected. -/
theorem c6_all_ones_safe (cmap : ℝ → ℝ × ℝ × ℝ) (L : ℕ) (sizes : List ℕ)
    (h : ∀ s ∈ sizes, s = 1) :
    mapper cmap L sizes =
      (List.replicate sizes.length unconnectedRGBA,
        List.replicate sizes.length (baseNodeSize L)) := by
  rw [mapper, mapperColors, mapperSizes]
  simp only [Prod.mk.injEq]
  constructor
  · rw [List.map_congr_left (fun s hs => by
      rw [h s hs]; simp [siteColor] : ∀ s ∈ sizes, siteColor cmap sizes s = unconnectedRGBA)]
    exact map_const_replicate sizes unconnectedRGBA
  · rw [List.map_congr_left (fun s hs => by
      rw [h s hs]; simp [siteSize] : ∀ s ∈ sizes, siteSize L sizes s = baseNodeSize L)]
    exact map_const_replicate sizes (baseNodeSize L)

/-- C6 witness: the all-ones frame of four sites maps to four unconnected
colors and four base-size markers. -/
theorem c6_all_ones_safe_witness :
    mapper constCmap 2 [1, 1, 1, 1] =
      (List.replicate 4 unconnectedRGBA,
        List.replicate 4 (baseNodeSize 2)) :=
  c6_all_ones_safe constCmap 2 [1, 1, 1, 1] (by decide)

/-- C9: the color/size mapper is a deterministic function of the frame sizes:
two calls on identical inputs produce identical color and marker-size
arrays. -/
theorem c9_mapper_deterministic (cmap : ℝ → ℝ × ℝ × ℝ) (L : ℕ)
    (s1 s2 : List ℕ) (h : s1 = s2) :
    mapper cmap L s1 = mapper cmap L s2 := by
  rw [h]

/-- C9 witness: two calls on the concrete frame `[1, 2, 2, 1]` agree. -/
theorem c9_mapper_deterministic_witness :
    mapper constCmap 2 [1, 2, 2, 1] = mapper constCmap 2 [1, 2, 2, 1] :=
  c9_mapper_deterministic constCmap 2 [1, 2, 2, 1] [1, 2, 2, 1] rfl

/-- C2 (amended): a connected site's marker size equals
`base_size * (0.5 + 0.5 * ratio ^ 0.5)` with
`ratio = size / max connected size`; this factor lies in `(1/2, 1]`, so the
marker is strictly larger than half the unconnected marker but never larger
than it (it equals it exactly at `ratio = 1`). -/
theorem c2_connected_size (L : ℕ) (sizes : List ℕ) (i : ℕ)
    (hi : i < sizes.length) (hs : 1 < sizes.getD i 0) :
    (mapperSizes L sizes).getD i 0 =
        baseNodeSize L *
          (1 / 2 +
            1 / 2 * Real.sqrt ((sizes.getD i 0 : ℝ) / (maxConnected sizes : ℝ))) ∧
      baseNodeSize L / 2 < (mapperSizes L sizes).getD i 0 ∧
      (mapperSizes L sizes).getD i 0 ≤ baseNodeSize L := by
  have hmem : sizes.getD i 0 ∈ sizes := by
    rw [List.getD_eq_getElem _ _ hi]; exact List.getElem_mem hi
  have hle : sizes.getD i 0 ≤ maxConnected sizes :=
    mem_le_maxConnected hmem (by omega)
  have hmaxpos : 0 < maxConnected sizes := by omega
  have hmaxposR : (0 : ℝ) < (maxConnected sizes : ℝ) := by
    exact_mod_cast hmaxpos
  have hratio_pos : (0 : ℝ) < (sizes.getD i 0 : ℝ) / (maxConnected sizes : ℝ) := by
    apply div_pos _ hmaxposR
    exact_mod_cast Nat.lt_of_lt_of_le Nat.zero_lt_one (le_of_lt hs)
  have hratio_le : (sizes.getD i 0 : ℝ) / (maxConnected sizes : ℝ) ≤ 1 := by
    rw [div_le_one hmaxposR]
    exact_mod_cast hle
  have hsqrt_pos : 0 < Real.sqrt ((sizes.getD i 0 : ℝ) / (maxConnected sizes : ℝ)) :=
    Real.sqrt_pos.mpr hratio_pos
  have hsqrt_le : Real.sqrt ((sizes.getD i 0 : ℝ) / (maxConnected sizes : ℝ)) ≤ 1 := by
    calc Real.sqrt ((sizes.getD i 0 : ℝ) / (maxConnected sizes : ℝ))
        ≤ Real.sqrt 1 := Real.sqrt_le_sqrt hratio_le
      _ = 1 := Real.sqrt_one
  have h1 : (mapperSizes L sizes)[i]? = some (siteSize L sizes (sizes.getD i 0)) := by
    simp [mapperSizes, List.getElem?_map, List.getElem?_eq_getElem hi,
      List.getD_eq_getElem _ _ hi]
  have hformula : (mapperSizes L sizes).getD i 0 =
      baseNodeSize L *
        (1 / 2 +
          1 / 2 * Real.sqrt ((sizes.getD i 0 : ℝ) / (maxConnected sizes : ℝ))) := by
    rw [List.getD_eq_getElem?_getD, h1, Option.getD_some, siteSize, if_neg (by omega)]
  have hbase := baseNodeSize_pos L
  refine ⟨hformula, ?_, ?_⟩
  · rw [hformula]; nlinarith
  · rw [hformula]; nlinarith

/-- C2 amended witness: in the frame `[3, 3, 3, 2, 2, 1, 1, 1, 1]` on the
`3 × 3` grid, site `3` (size `2`, max connected size `3`) satisfies the
formula and bounds. -/
theorem c2_connected_size_witness :
    (mapperSizes 3 [3, 3, 3, 2, 2, 1, 1, 1, 1]).getD 3 0 =
        baseNodeSize 3 *
          (1 / 2 +
            1 / 2 *
              Real.sqrt
                ((List.getD [3, 3, 3, 2, 2, 1, 1, 1, 1] 3 0 : ℝ) /
                  (maxConnected [3, 3, 3, 2, 2, 1, 1, 1, 1] : ℝ))) ∧
      baseNodeSize 3 / 2 < (mapperSizes 3 [3, 3, 3, 2, 2, 1, 1, 1, 1]).getD 3 0 ∧
      (mapperSizes 3 [3, 3, 3, 2, 2, 1, 1, 1, 1]).getD 3 0 ≤ baseNodeSize 3 :=
  c2_connected_size 3 [3, 3, 3, 2, 2, 1, 1, 1, 1] 3 (by decide) (by decide)

/-- C2 counterexample: in the frame `[3, 3, 3, 2, 2, 1, 1, 1, 1]` the
connected site `3` (cluster size `2 > 1`) is rendered strictly smaller than
an unconnected site (site `5`, rendered at the fixed base size), refuting the
claim that every connected site's marker is larger than the unconnected
marker. -/
theorem c2_not_larger_cex :
    (mapperSizes 3 [3, 3, 3, 2, 2, 1, 1, 1, 1]).getD 3 0 <
        (mapperSizes 3 [3, 3, 3, 2, 2, 1, 1, 1, 1]).getD 5 0 ∧
      (mapperSizes 3 [3, 3, 3, 2, 2, 1, 1, 1, 1]).getD 5 0 = baseNodeSize 3 := by
  have hmax : maxConnected [3, 3, 3, 2, 2, 1, 1, 1, 1] = 3 := by decide
  have h5 : (mapperSizes 3 [3, 3, 3, 2, 2, 1, 1, 1, 1]).getD 5 0 = baseNodeSize 3 := by
    simp only [mapperSizes, List.map_cons, List.map_nil, List.getD_cons_succ,
      List.getD_cons_zero]
    simp [siteSize]
  have h3 : (mapperSizes 3 [3, 3, 3, 2, 2, 1, 1, 1, 1]).getD 3 0 =
      baseNodeSize 3 * (1 / 2 + 1 / 2 * Real.sqrt ((2 : ℝ) / 3)) := by
    simp only [mapperSizes, List.map_cons, List.map_nil, List.getD_cons_succ,
      List.getD_cons_zero]
    rw [siteSize, if_neg (by omega), hmax]
    norm_num
  refine ⟨?_, h5⟩
  rw [h3, h5]
  have hs23 : Real.sqrt ((2 : ℝ) / 3) < 1 :=
    (Real.sqrt_lt' (by norm_num)).mpr (by norm_num)
  have hs0 : 0 ≤ Real.sqrt ((2 : ℝ) / 3) := Real.sqrt_nonneg _
  nlinarith [baseNodeSize_pos 3]

/-! ## Growth pulse tracker (spec section 4.4)

The Growth Pulse Tracker is a component of the repository's frame engine
that is not present in the current rewrite of the script under `src/`
(`read.py` contains no delta or pulse computation); the definitions of this
section are therefore modelled from the spec's words. -/

/-- `max(sizes)` over a frame. -/
def maxAll (l : List ℕ) : ℕ := l.foldr max 0

/-- Modelled from the spec: the alternating pulse factor selected by frame
parity — even frames `×1.2`, odd frames `×1.1` (spec section 4.4). -/
noncomputable def pulseFactor (frame : ℕ) : ℝ :=
  if frame % 2 = 0 then 12 / 10 else 11 / 10

/-- Modelled from the spec: the pulse tracker's accumulator holding the
previous frame's size array. -/
structure PulseState where
  prev : List ℕ

/-- Modelled from the spec: the rendered marker sizes after the pulse pass.
A site `i` is flagged when `delta[i] = sizes[i] - prev_sizes[i]` exceeds
`threshold * max(sizes)`; flagged sites have their rendered marker size
multiplied by the parity pulse factor.  At `t = 0` there is no previous
frame and no pulses. -/
noncomputable def applyPulse (threshold : ℝ) (prevSizes curSizes : List ℕ)
    (frame : ℕ) (markers : List ℝ) : List ℝ :=
  if frame = 0 then markers
  else
    (List.range markers.length).map (fun i =>
      if (curSizes.getD i 0 : ℝ) - (prevSizes.getD i 0 : ℝ) >
          threshold * (maxAll curSizes : ℝ) then
        pulseFactor frame * markers.getD i 0
      else markers.getD i 0)

/-- Modelled from the spec: one step of the Growth Pulse Tracker — produce
the pulsed render-time copy of the marker sizes, and store the current sizes
as the next `prev_sizes`.  The canonical size array is only read, never
written. -/
noncomputable def pulseStep (threshold : ℝ) (st : PulseState)
    (curSizes : List ℕ) (frame : ℕ) (markers : List ℝ) :
    List ℝ × PulseState :=
  (applyPulse threshold st.prev curSizes frame markers, ⟨curSizes⟩)

/-- C10: at a frame `t > 0`, every site whose cluster-size increase over the
previous frame exceeds `threshold * max(sizes)` has its rendered marker size
multiplied by the parity pulse factor (`×1.2` even, `×1.1` odd); the pulse
writes only the render-time copy, and the canonical sizes are stored in the
tracker state unchanged. -/
theorem c10_growth_pulse (threshold : ℝ) (st : PulseState)
    (curSizes : List ℕ) (frame : ℕ) (markers : List ℝ) (i : ℕ)
    (hframe : 0 < frame) (hi : i < markers.length)
    (hflag : (curSizes.getD i 0 : ℝ) - (st.prev.getD i 0 : ℝ) >
      threshold * (maxAll curSizes : ℝ)) :
    (pulseStep threshold st curSizes frame markers).1.getD i 0 =
        (if frame % 2 = 0 then (12 / 10 : ℝ) else 11 / 10) *
          markers.getD i 0 ∧
      (pulseStep threshold st curSizes frame markers).2.prev = curSizes ∧
      (pulseStep threshold st curSizes frame markers).1.length =
        markers.length := by
  refine ⟨?_, rfl, ?_⟩
  · rw [pulseStep, applyPulse, if_neg (by omega)]
    rw [List.getD_eq_getElem?_getD, List.getElem?_map,
      List.getElem?_range hi, Option.map_some']
    rw [if_pos hflag]
    rfl
  · rw [pulseStep, applyPulse, if_neg (by omega)]
    simp

/-- C10 witness: at frame `1` with threshold `1/2`, previous sizes
`[1, 1, 1, 1]` and current sizes `[3, 3, 1, 1]` (max `3`), site `0` grew by
`2 > 3/2`, so its rendered marker `10` is pulsed to `11/10 * 10`; the state
stores the current sizes unchanged. -/
theorem c10_growth_pulse_witness :
    (pulseStep (1 / 2) ⟨[1, 1, 1, 1]⟩ [3, 3, 1, 1] 1
          [10, 10, 10, 10]).1.getD 0 0 =
        (if 1 % 2 = 0 then (12 / 10 : ℝ) else 11 / 10) *
          (List.getD [10, 10, 10, 10] 0 0) ∧
      (pulseStep (1 / 2) ⟨[1, 1, 1, 1]⟩ [3, 3, 1, 1] 1
          [10, 10, 10, 10]).2.prev = [3, 3, 1, 1] ∧
      (pulseStep (1 / 2) ⟨[1, 1, 1, 1]⟩ [3, 3, 1, 1] 1
          [10, 10, 10, 10]).1.length =
        (List.length [10, 10, 10, 10]) :=
  c10_growth_pulse (1 / 2) ⟨[1, 1, 1, 1]⟩ [3, 3, 1, 1] 1 [10, 10, 10, 10] 0
    (by norm_num) (by norm_num)
    (by norm_num [maxAll, List.getD_cons_zero])

/-! ## Binary trace decoding (`load_percolation`, lines 15-34)

The byte-level on-disk encodings.  A byte is a natural number below `256`;
a `u32` is stored little-endian over four bytes.  The current script reads
the decomposed layout: flat `u32` arrays `roots.bin`, `sizes.bin`,
`top_sizes.bin` reshaped to `(T, L*L)` and `(T, top_n)` (`np.fromfile` +
`reshape`, lines 25-29), and `bonds.bin` as records
`(direction u1, row u4, col u4)` (`np.frombuffer` with `bonds_dtype`,
lines 31-32).  The interleaved and split layouts of spec section 4.1 belong
to earlier rewrites of the script that are not under `src/`; those decoders
are modelled from the spec's words below. -/

/-- Little-endian four-byte encoding of a `u32`. -/
def encU32 (n : ℕ) : List ℕ :=
  [n % 256, n / 256 % 256, n / 256 ^ 2 % 256, n / 256 ^ 3 % 256]

/-- A flat array of `u32` values, as on disk. -/
def encU32List (l : List ℕ) : List ℕ := l.flatMap encU32

/-- Parse a whole blob as little-endian `u32` values (`np.fromfile` with
`dtype=np.uint32`); fails when the byte length is not a multiple of 4. -/
def decU32s : List ℕ → Option (List ℕ)
  | [] => some []
  | b0 :: b1 :: b2 :: b3 :: rest =>
      (decU32s rest).map
        (fun vs => (b0 + 256 * b1 + 256 ^ 2 * b2 + 256 ^ 3 * b3) :: vs)
  | _ => none

/-- Split a flat value list into `rows` consecutive rows of width `w`. -/
def chunks {α : Type} : ℕ → ℕ → List α → List (List α)
  | 0, _, _ => []
  | r + 1, w, l => l.take w :: chunks r w (l.drop w)

/-- `reshape(rows, w)`: fails unless the flat length is exactly
`rows * w`. -/
def reshape {α : Type} (rows w : ℕ) (l : List α) : Option (List (List α)) :=
  if l.length = rows * w then some (chunks rows w l) else none

/-- On-disk bytes of one bond record `(direction u1, row u4, col u4)`
(`bonds_dtype`, line 31). -/
def encBond (b : RawBond) : List ℕ :=
  b.direction :: (encU32 b.row ++ encU32 b.col)

/-- The `bonds.bin` blob: concatenated 9-byte bond records. -/
def encBonds (l : List RawBond) : List ℕ := l.flatMap encBond

/-- Parse `bonds.bin` (`np.frombuffer` with `bonds_dtype`): fails when the
byte length is not a multiple of the 9-byte record size. -/
def decBonds : List ℕ → Option (List RawBond)
  | [] => some []
  | d :: r0 :: r1 :: r2 :: r3 :: c0 :: c1 :: c2 :: c3 :: rest =>
      (decBonds rest).map
        (fun bs =>
          (⟨d, r0 + 256 * r1 + 256 ^ 2 * r2 + 256 ^ 3 * r3,
            c0 + 256 * c1 + 256 ^ 2 * c2 + 256 ^ 3 * c3⟩ : RawBond) :: bs)
  | _ => none

/-- `top_n = int(os.getenv("TOP_N", 3))` (line 22): the ranking width is
taken from the `TOP_N` environment variable with default `3`; the metadata's
`top_n` field is not consulted. -/
def topNConfig (env : Option ℕ) : ℕ := env.getD 3

/-- The top-sizes loading path of `load_percolation` (lines 22 and 27-29):
parse the blob as `u32` values and reshape to `(total_states, top_n)` with
`top_n` from `topNConfig`. -/
def loadTopSizes (env : Option ℕ) (T : ℕ) (topsB : List ℕ) :
    Option (List (List ℕ)) := do
  let vs ← decU32s topsB
  reshape T (topNConfig env) vs

/-- Decoder for the decomposed layout, mirroring `load_percolation`
(lines 25-32): four flat blobs for roots, sizes, top sizes, and bonds. -/
def decodeDecomposed (L T K : ℕ) (rootsB sizesB topsB bondsB : List ℕ) :
    Option (List (List ℕ) × List (List ℕ) × List RawBond × List (List ℕ)) := do
  let rv ← decU32s rootsB
  let roots ← reshape T (L * L) rv
  let sv ← decU32s sizesB
  let sizes ← reshape T (L * L) sv
  let tv ← decU32s topsB
  let tops ← reshape T K tv
  let bonds ← decBonds bondsB
  pure (roots, sizes, bonds, tops)

/-- Modelled from the spec: decoder for the split-arrays layout of spec
section 4.1b, which is not present in the current rewrite under `src/` — a
flat array of `T * L^2` `u32` cluster sizes plus a separate array of
fixed-width bond records, validated to yield exactly `T` frame rows and
`T - 1` bonds. -/
def decodeSplit (L T : ℕ) (sizesB bondsB : List ℕ) :
    Option (List (List ℕ) × List RawBond) := do
  let sv ← decU32s sizesB
  let sizes ← reshape T (L * L) sv
  let bonds ← decBonds bondsB
  if bonds.length = T - 1 then pure (sizes, bonds) else none

/-- On-disk bytes of one interleaved state block: `(root, size)` pairs of
`u32` values, one pair per site. -/
def encPairList (ps : List (ℕ × ℕ)) : List ℕ :=
  ps.flatMap (fun p => encU32 p.1 ++ encU32 p.2)

/-- Parse `n` `(root, size)` pairs, returning the pairs and the remaining
bytes. -/
def decPairs : ℕ → List ℕ → Option (List (ℕ × ℕ) × List ℕ)
  | 0, bs => some ([], bs)
  | n + 1, a0 :: a1 :: a2 :: a3 :: b0 :: b1 :: b2 :: b3 :: rest =>
      (decPairs n rest).map
        (fun x =>
          ((a0 + 256 * a1 + 256 ^ 2 * a2 + 256 ^ 3 * a3,
             b0 + 256 * b1 + 256 ^ 2 * b2 + 256 ^ 3 * b3) :: x.1, x.2))
  | _ + 1, _ => none

/-- On-disk bytes of the interleaved stream's repeated tuples: each a bond
record followed by a full state block. -/
def encTuples (l : List (RawBond × List (ℕ × ℕ))) : List ℕ :=
  l.flatMap (fun x => encBond x.1 ++ encPairList x.2)

/-- Parse exactly `n` interleaved `(bond, state block)` tuples and require
the stream to be exhausted. -/
def decTuples (sites : ℕ) : ℕ → List ℕ → Option (List (RawBond × List (ℕ × ℕ)))
  | 0, [] => some []
  | 0, _ :: _ => none
  | n + 1, d :: r0 :: r1 :: r2 :: r3 :: c0 :: c1 :: c2 :: c3 :: rest => do
      let x ← decPairs sites rest
      let ts ← decTuples sites n x.2
      pure ((⟨d, r0 + 256 * r1 + 256 ^ 2 * r2 + 256 ^ 3 * r3,
               c0 + 256 * c1 + 256 ^ 2 * c2 + 256 ^ 3 * c3⟩, x.1) :: ts)
  | _ + 1, _ => none

/-- Modelled from the spec: decoder for the interleaved layout of spec
section 4.1a, which is not present in the current rewrite under `src/` —
one initial state block of `(root, size)` pairs followed by `T - 1`
`(direction, row, col, state block)` tuples in one stream. -/
def decodeInterleaved (sites T : ℕ) (stream : List ℕ) :
    Option (List (List (ℕ × ℕ)) × List RawBond) := do
  let x ← decPairs sites stream
  let ts ← decTuples sites (T - 1) x.2
  pure (x.1 :: ts.map Prod.snd, ts.map Prod.fst)

/-- A recorded trace: the synthetic ground truth from which each on-disk
layout is produced. -/
structure Trace where
  L : ℕ
  T : ℕ
  K : ℕ
  roots : List (List ℕ)
  sizes : List (List ℕ)
  bonds : List RawBond
  tops : List (List ℕ)
deriving Repr

/-- Well-formedness of a trace: the shape invariants of spec section 3 plus
the value bounds imposed by the fixed-width binary fields. -/
def Trace.WF (tr : Trace) : Prop :=
  1 ≤ tr.T ∧
  tr.roots.length = tr.T ∧ tr.sizes.length = tr.T ∧ tr.tops.length = tr.T ∧
  tr.bonds.length = tr.T - 1 ∧
  (∀ r ∈ tr.roots, r.length = tr.L * tr.L) ∧
  (∀ r ∈ tr.sizes, r.length = tr.L * tr.L) ∧
  (∀ r ∈ tr.tops, r.length = tr.K) ∧
  (∀ r ∈ tr.roots, ∀ v ∈ r, v < 2 ^ 32) ∧
  (∀ r ∈ tr.sizes, ∀ v ∈ r, v < 2 ^ 32) ∧
  (∀ r ∈ tr.tops, ∀ v ∈ r, v < 2 ^ 32) ∧
  (∀ b ∈ tr.bonds, b.direction < 256 ∧ b.row < 2 ^ 32 ∧ b.col < 2 ^ 32)

instance (tr : Trace) : Decidable tr.WF := by
  rw [Trace.WF]; infer_instance

/-- The per-frame `(root, size)` state blocks of the interleaved layout. -/
def blocksOf (tr : Trace) : List (List (ℕ × ℕ)) :=
  List.zipWith List.zip tr.roots tr.sizes

/-- The interleaved on-disk stream of a trace: the frame-0 block followed by
each bond's record and the following frame's block. -/
def encInterleavedStream (tr : Trace) : List ℕ :=
  match blocksOf tr with
  | [] => []
  | b :: rest => encPairList b ++ encTuples (tr.bonds.zip rest)

/-- The Normalized Trace Model: per-frame cluster sizes and the interpreted
bond list. -/
structure NTM where
  frames : List (List ℕ)
  nbonds : List NBond
deriving DecidableEq, Repr

/-- The canonical model recorded by a trace. -/
def Trace.ntm (tr : Trace) : NTM := ⟨tr.sizes, tr.bonds.map normBond⟩

/-- Normalization of a decoded interleaved result: sizes are the second
components of the state blocks, roots are tolerated and dropped. -/
def interNTM (x : List (List (ℕ × ℕ)) × List RawBond) : NTM :=
  ⟨x.1.map (fun blk => blk.map Prod.snd), x.2.map normBond⟩

/-- Normalization of a decoded split-arrays result. -/
def splitNTM (x : List (List ℕ) × List RawBond) : NTM :=
  ⟨x.1, x.2.map normBond⟩

/-- Normalization of a decoded decomposed result: roots and top sizes are
tolerated and dropped. -/
def decompNTM
    (x : List (List ℕ) × List (List ℕ) × List RawBond × List (List ℕ)) : NTM :=
  ⟨x.2.1, x.2.2.1.map normBond⟩

theorem decU32s_encU32List (l : List ℕ) (h : ∀ v ∈ l, v < 2 ^ 32) :
    decU32s (encU32List l) = some l := by
  induction l with
  | nil => rfl
  | cons v vs ih =>
    have hv : v < 2 ^ 32 := h v (List.mem_cons_self _ _)
    have hrest := ih (fun x hx => h x (List.mem_cons_of_mem _ hx))
    show decU32s ((v :: vs).flatMap encU32) = some (v :: vs)
    rw [List.flatMap_cons]
    show decU32s (encU32 v ++ encU32List vs) = some (v :: vs)
    simp only [encU32, List.cons_append, List.nil_append]
    rw [decU32s, hrest, Option.map_some']
    have hval : v % 256 + 256 * (v / 256 % 256) + 256 ^ 2 * (v / 256 ^ 2 % 256) +
        256 ^ 3 * (v / 256 ^ 3 % 256) = v := by omega
    rw [hval]

theorem chunks_flatten {α : Type} (w : ℕ) :
    ∀ (ll : List (List α)), (∀ r ∈ ll, r.length = w) →
      chunks ll.length w ll.flatten = ll := by
  intro ll
  induction ll with
  | nil => intro _; rfl
  | cons r t ih =>
    intro hw
    have hr : r.length = w := hw r (List.mem_cons_self _ _)
    show chunks (t.length + 1) w ((r :: t).flatten) = r :: t
    have htake : (r ++ t.flatten).take w = r := by
      rw [← hr]; exact List.take_left r t.flatten
    have hdrop : (r ++ t.flatten).drop w = t.flatten := by
      rw [← hr]; exact List.drop_left r t.flatten
    rw [List.flatten_cons, chunks, htake, hdrop,
      ih (fun x hx => hw x (List.mem_cons_of_mem _ hx))]

theorem length_flatten_const {α : Type} (w : ℕ) :
    ∀ (ll : List (List α)), (∀ r ∈ ll, r.length = w) →
      ll.flatten.length = ll.length * w := by
  intro ll
  induction ll with
  | nil => intro _; simp
  | cons r t ih =>
    intro hw
    rw [List.flatten_cons, List.length_append,
      ih (fun x hx => hw x (List.mem_cons_of_mem _ hx)),
      hw r (List.mem_cons_self _ _), List.length_cons]
    ring

theorem reshape_flatten {α : Type} (rows w : ℕ) (ll : List (List α))
    (hlen : ll.length = rows) (hw : ∀ r ∈ ll, r.length = w) :
    reshape rows w ll.flatten = some ll := by
  subst hlen
  rw [reshape, if_pos (length_flatten_const w ll hw), chunks_flatten w ll hw]

theorem decBonds_encBonds (l : List RawBond)
    (h : ∀ b ∈ l, b.row < 2 ^ 32 ∧ b.col < 2 ^ 32) :
    decBonds (encBonds l) = some l := by
  induction l with
  | nil => rfl
  | cons b t ih =>
    obtain ⟨d, r, c⟩ := b
    have hb := h _ (List.mem_cons_self _ _)
    have hr32 : r < 2 ^ 32 := hb.1
    have hc32 : c < 2 ^ 32 := hb.2
    have hrest := ih (fun x hx => h x (List.mem_cons_of_mem _ hx))
    show decBonds ((⟨d, r, c⟩ :: t : List RawBond).flatMap encBond) = _
    rw [List.flatMap_cons]
    show decBonds (encBond ⟨d, r, c⟩ ++ encBonds t) = _
    simp only [encBond, encU32, List.cons_append, List.nil_append,
      List.append_assoc]
    rw [decBonds, hrest, Option.map_some']
    have hr : r % 256 + 256 * (r / 256 % 256) + 256 ^ 2 * (r / 256 ^ 2 % 256) +
        256 ^ 3 * (r / 256 ^ 3 % 256) = r := by omega
    have hc : c % 256 + 256 * (c / 256 % 256) + 256 ^ 2 * (c / 256 ^ 2 % 256) +
        256 ^ 3 * (c / 256 ^ 3 % 256) = c := by omega
    rw [hr, hc]

theorem decPairs_encPairList (ps : List (ℕ × ℕ)) (rest : List ℕ)
    (h : ∀ p ∈ ps, p.1 < 2 ^ 32 ∧ p.2 < 2 ^ 32) :
    decPairs ps.length (encPairList ps ++ rest) = some (ps, rest) := by
  induction ps with
  | nil => rfl
  | cons p t ih =>
    obtain ⟨a, b⟩ := p
    have hp := h _ (List.mem_cons_self _ _)
    have ha32 : a < 2 ^ 32 := hp.1
    have hb32 : b < 2 ^ 32 := hp.2
    have hrest := ih (fun x hx => h x (List.mem_cons_of_mem _ hx))
    show decPairs (t.length + 1) (((a, b) :: t : List (ℕ × ℕ)).flatMap _ ++ rest) = _
    rw [List.flatMap_cons]
    show decPairs (t.length + 1)
        ((encU32 a ++ encU32 b) ++ encPairList t ++ rest) = _
    simp only [encU32, List.cons_append, List.nil_append, List.append_assoc]
    rw [decPairs, hrest, Option.map_some']
    have ha : a % 256 + 256 * (a / 256 % 256) + 256 ^ 2 * (a / 256 ^ 2 % 256) +
        256 ^ 3 * (a / 256 ^ 3 % 256) = a := by omega
    have hb : b % 256 + 256 * (b / 256 % 256) + 256 ^ 2 * (b / 256 ^ 2 % 256) +
        256 ^ 3 * (b / 256 ^ 3 % 256) = b := by omega
    rw [ha, hb]

theorem decTuples_encTuples (sites : ℕ) (l : List (RawBond × List (ℕ × ℕ)))
    (hb : ∀ x ∈ l, x.1.row < 2 ^ 32 ∧ x.1.col < 2 ^ 32)
    (hblk : ∀ x ∈ l,
      x.2.length = sites ∧ ∀ p ∈ x.2, p.1 < 2 ^ 32 ∧ p.2 < 2 ^ 32) :
    decTuples sites l.length (encTuples l) = some l := by
  induction l with
  | nil => rfl
  | cons x t ih =>
    obtain ⟨b, blk⟩ := x
    obtain ⟨d, r, c⟩ := b
    have hx := hb _ (List.mem_cons_self _ _)
    have hr32 : r < 2 ^ 32 := hx.1
    have hc32 : c < 2 ^ 32 := hx.2
    have hxblk := hblk _ (List.mem_cons_self _ _)
    have hlen : blk.length = sites := hxblk.1
    have hbnd : ∀ p ∈ blk, p.1 < 2 ^ 32 ∧ p.2 < 2 ^ 32 := hxblk.2
    have hrest := ih (fun y hy => hb y (List.mem_cons_of_mem _ hy))
      (fun y hy => hblk y (List.mem_cons_of_mem _ hy))
    show decTuples sites (t.length + 1)
        (((⟨⟨d, r, c⟩, blk⟩ : RawBond × List (ℕ × ℕ)) :: t).flatMap _) = _
    rw [List.flatMap_cons]
    show decTuples sites (t.length + 1)
        ((encBond ⟨d, r, c⟩ ++ encPairList blk) ++ encTuples t) = _
    simp only [encBond, encU32, List.cons_append, List.nil_append,
      List.append_assoc]
    rw [decTuples]
    have hpairs : decPairs sites (encPairList blk ++ encTuples t) =
        some (blk, encTuples t) := by
      rw [← hlen]; exact decPairs_encPairList blk (encTuples t) hbnd
    rw [hpairs]
    show (decTuples sites t.length (encTuples t)).bind _ = _
    rw [hrest]
    show some _ = _
    have hr : r % 256 + 256 * (r / 256 % 256) + 256 ^ 2 * (r / 256 ^ 2 % 256) +
        256 ^ 3 * (r / 256 ^ 3 % 256) = r := by omega
    have hc : c % 256 + 256 * (c / 256 % 256) + 256 ^ 2 * (c / 256 ^ 2 % 256) +
        256 ^ 3 * (c / 256 ^ 3 % 256) = c := by omega
    rw [hr, hc]

theorem blocksOf_mem (tr : Trace) (blk : List (ℕ × ℕ))
    (h : blk ∈ blocksOf tr) :
    ∃ r ∈ tr.roots, ∃ s ∈ tr.sizes, blk = r.zip s := by
  rw [blocksOf] at h
  revert h
  generalize tr.roots = rs
  generalize tr.sizes = ss
  induction rs generalizing ss with
  | nil => intro h; cases h
  | cons r rt ih =>
    cases ss with
    | nil => intro h; cases h
    | cons s st =>
      intro h
      rcases List.mem_cons.mp h with h | h
      · exact ⟨r, List.mem_cons_self _ _, s, List.mem_cons_self _ _, h⟩
      · obtain ⟨r', hr', s', hs', he⟩ := ih st h
        exact ⟨r', List.mem_cons_of_mem _ hr', s', List.mem_cons_of_mem _ hs', he⟩

theorem zipWith_zip_map_snd :
    ∀ (rs ss : List (List ℕ)), rs.length = ss.length →
      (∀ i r s, rs.get? i = some r → ss.get? i = some s → s.length ≤ r.length) →
      (List.zipWith List.zip rs ss).map (fun blk => blk.map Prod.snd) = ss := by
  intro rs
  induction rs with
  | nil =>
    intro ss hlen _
    cases ss with
    | nil => rfl
    | cons s st => simp at hlen
  | cons r rt ih =>
    intro ss hlen hrow
    cases ss with
    | nil => simp at hlen
    | cons s st =>
      rw [List.zipWith_cons_cons, List.map_cons,
        List.map_snd_zip r s (hrow 0 r s rfl rfl),
        ih st (by simpa using hlen)
          (fun i r' s' h1 h2 => hrow (i + 1) r' s' h1 h2)]

theorem zipWith_zip_map_fst :
    ∀ (rs ss : List (List ℕ)), rs.length = ss.length →
      (∀ i r s, rs.get? i = some r → ss.get? i = some s → r.length ≤ s.length) →
      (List.zipWith List.zip rs ss).map (fun blk => blk.map Prod.fst) = rs := by
  intro rs
  induction rs with
  | nil =>
    intro ss hlen _
    cases ss with
    | nil => rfl
    | cons s st => simp at hlen
  | cons r rt ih =>
    intro ss hlen hrow
    cases ss with
    | nil => simp at hlen
    | cons s st =>
      rw [List.zipWith_cons_cons, List.map_cons,
        List.map_fst_zip r s (hrow 0 r s rfl rfl),
        ih st (by simpa using hlen)
          (fun i r' s' h1 h2 => hrow (i + 1) r' s' h1 h2)]

theorem decodeInterleaved_enc (tr : Trace) (h : tr.WF) :
    decodeInterleaved (tr.L * tr.L) tr.T (encInterleavedStream tr) =
      some (blocksOf tr, tr.bonds) := by
  obtain ⟨hT, hrootsLen, hsizesLen, _, hbondsLen, hrootsRow, hsizesRow, _,
    hrootsBnd, hsizesBnd, _, hbondsBnd⟩ := h
  have hblocksLen : (blocksOf tr).length = tr.T := by
    rw [blocksOf, List.length_zipWith, hrootsLen, hsizesLen]
    simp
  have hblockProp : ∀ blk ∈ blocksOf tr,
      blk.length = tr.L * tr.L ∧ ∀ p ∈ blk, p.1 < 2 ^ 32 ∧ p.2 < 2 ^ 32 := by
    intro blk hblk
    obtain ⟨r, hr, s, hs, he⟩ := blocksOf_mem tr blk hblk
    subst he
    constructor
    · rw [List.length_zip, hrootsRow r hr, hsizesRow s hs]
      simp
    · intro p hp
      obtain ⟨a, b⟩ := p
      obtain ⟨h1, h2⟩ := List.of_mem_zip hp
      exact ⟨hrootsBnd r hr _ h1, hsizesBnd s hs _ h2⟩
  cases hbs : blocksOf tr with
  | nil =>
    rw [hbs] at hblocksLen
    simp at hblocksLen
    omega
  | cons b rest =>
    have hbProp := hblockProp b (by rw [hbs]; exact List.mem_cons_self _ _)
    have hrestLen : rest.length = tr.T - 1 := by
      rw [hbs] at hblocksLen
      simp at hblocksLen
      omega
    have hzipLen : (tr.bonds.zip rest).length = tr.T - 1 := by
      rw [List.length_zip, hbondsLen, hrestLen]
      simp
    have hpairs : decPairs (tr.L * tr.L)
        (encPairList b ++ encTuples (tr.bonds.zip rest)) =
        some (b, encTuples (tr.bonds.zip rest)) := by
      rw [← hbProp.1]
      exact decPairs_encPairList b _ hbProp.2
    have htuples : decTuples (tr.L * tr.L) (tr.T - 1)
        (encTuples (tr.bonds.zip rest)) = some (tr.bonds.zip rest) := by
      rw [← hzipLen]
      apply decTuples_encTuples
      · intro x hx
        obtain ⟨bd, blk⟩ := x
        obtain ⟨h1, _⟩ := List.of_mem_zip hx
        exact ⟨(hbondsBnd _ h1).2.1, (hbondsBnd _ h1).2.2⟩
      · intro x hx
        obtain ⟨bd, blk⟩ := x
        obtain ⟨_, h2⟩ := List.of_mem_zip hx
        exact hblockProp blk (by rw [hbs]; exact List.mem_cons_of_mem _ h2)
    have hstream : encInterleavedStream tr =
        encPairList b ++ encTuples (tr.bonds.zip rest) := by
      rw [encInterleavedStream, hbs]
    rw [hstream, decodeInterleaved]
    simp only [Option.bind_eq_bind, hpairs, Option.some_bind, htuples,
      Option.pure_def]
    have hsnd : (tr.bonds.zip rest).map Prod.snd = rest :=
      List.map_snd_zip _ _ (by omega)
    have hfst : (tr.bonds.zip rest).map Prod.fst = tr.bonds :=
      List.map_fst_zip _ _ (by omega)
    rw [hsnd, hfst]

/-- C3: decoding each of the three supported on-disk encodings of a
well-formed trace yields the identical Normalized Trace Model — the same
frames and (interpreted) bonds from all three, and from the decomposed
layout additionally the recorded roots and top-K data, byte-exactly. -/
theorem c3_three_formats_agree (tr : Trace) (h : tr.WF) :
    (decodeInterleaved (tr.L * tr.L) tr.T (encInterleavedStream tr)).map
        interNTM = some tr.ntm ∧
      (decodeSplit tr.L tr.T (encU32List tr.sizes.flatten)
          (encBonds tr.bonds)).map splitNTM = some tr.ntm ∧
      decodeDecomposed tr.L tr.T tr.K (encU32List tr.roots.flatten)
          (encU32List tr.sizes.flatten) (encU32List tr.tops.flatten)
          (encBonds tr.bonds) =
        some (tr.roots, tr.sizes, tr.bonds, tr.tops) ∧
      (decodeDecomposed tr.L tr.T tr.K (encU32List tr.roots.flatten)
          (encU32List tr.sizes.flatten) (encU32List tr.tops.flatten)
          (encBonds tr.bonds)).map decompNTM = some tr.ntm := by
  have hWF := h
  obtain ⟨hT, hrootsLen, hsizesLen, htopsLen, hbondsLen, hrootsRow, hsizesRow,
    htopsRow, hrootsBnd, hsizesBnd, htopsBnd, hbondsBnd⟩ := h
  have hrootsFlat : decU32s (encU32List tr.roots.flatten) =
      some tr.roots.flatten := by
    apply decU32s_encU32List
    intro v hv
    obtain ⟨r, hr, hvr⟩ := List.mem_flatten.mp hv
    exact hrootsBnd r hr v hvr
  have hsizesFlat : decU32s (encU32List tr.sizes.flatten) =
      some tr.sizes.flatten := by
    apply decU32s_encU32List
    intro v hv
    obtain ⟨r, hr, hvr⟩ := List.mem_flatten.mp hv
    exact hsizesBnd r hr v hvr
  have htopsFlat : decU32s (encU32List tr.tops.flatten) =
      some tr.tops.flatten := by
    apply decU32s_encU32List
    intro v hv
    obtain ⟨r, hr, hvr⟩ := List.mem_flatten.mp hv
    exact htopsBnd r hr v hvr
  have hrootsRe : reshape tr.T (tr.L * tr.L) tr.roots.flatten = some tr.roots :=
    reshape_flatten _ _ _ hrootsLen hrootsRow
  have hsizesRe : reshape tr.T (tr.L * tr.L) tr.sizes.flatten = some tr.sizes :=
    reshape_flatten _ _ _ hsizesLen hsizesRow
  have htopsRe : reshape tr.T tr.K tr.tops.flatten = some tr.tops :=
    reshape_flatten _ _ _ htopsLen htopsRow
  have hbondsDec : decBonds (encBonds tr.bonds) = some tr.bonds :=
    decBonds_encBonds _
      (fun b hb => ⟨(hbondsBnd b hb).2.1, (hbondsBnd b hb).2.2⟩)
  have hinterNTM : interNTM (blocksOf tr, tr.bonds) = tr.ntm := by
    rw [interNTM, Trace.ntm, blocksOf]
    congr 1
    apply zipWith_zip_map_snd tr.roots tr.sizes (by omega)
    intro i r s h1 h2
    rw [hrootsRow r (List.get?_mem h1), hsizesRow s (List.get?_mem h2)]
  refine ⟨?_, ?_, ?_, ?_⟩
  · rw [decodeInterleaved_enc tr hWF, Option.map_some', hinterNTM]
  · rw [decodeSplit]
    simp only [Option.bind_eq_bind, hsizesFlat, Option.some_bind, hsizesRe,
      hbondsDec, Option.pure_def]
    rw [if_pos hbondsLen, Option.map_some', splitNTM, Trace.ntm]
  · rw [decodeDecomposed]
    simp only [Option.bind_eq_bind, hrootsFlat, Option.some_bind, hrootsRe,
      hsizesFlat, hsizesRe, htopsFlat, htopsRe, hbondsDec, Option.pure_def]
  · rw [decodeDecomposed]
    simp only [Option.bind_eq_bind, hrootsFlat, Option.some_bind, hrootsRe,
      hsizesFlat, hsizesRe, htopsFlat, htopsRe, hbondsDec, Option.pure_def,
      Option.map_some']
    rw [decompNTM, Trace.ntm]

/-- The synthetic concrete trace of the spec's test scenario (shrunk to a
`2 x 2` grid): three frames, two bonds, `K = 2`. -/
def demoTrace : Trace :=
  ⟨2, 3, 2,
    [[0, 1, 2, 3], [0, 0, 2, 3], [0, 0, 2, 2]],
    [[1, 1, 1, 1], [2, 2, 1, 1], [2, 2, 2, 2]],
    [⟨1, 0, 0⟩, ⟨0, 1, 0⟩],
    [[1, 1], [2, 1], [2, 2]]⟩

/-- C3 witness: the three encodings of the synthetic `demoTrace` all decode
to its Normalized Trace Model. -/
theorem c3_three_formats_agree_witness :
    (decodeInterleaved (demoTrace.L * demoTrace.L) demoTrace.T
          (encInterleavedStream demoTrace)).map interNTM =
        some demoTrace.ntm ∧
      (decodeSplit demoTrace.L demoTrace.T
          (encU32List demoTrace.sizes.flatten)
          (encBonds demoTrace.bonds)).map splitNTM = some demoTrace.ntm ∧
      decodeDecomposed demoTrace.L demoTrace.T demoTrace.K
          (encU32List demoTrace.roots.flatten)
          (encU32List demoTrace.sizes.flatten)
          (encU32List demoTrace.tops.flatten) (encBonds demoTrace.bonds) =
        some (demoTrace.roots, demoTrace.sizes, demoTrace.bonds,
          demoTrace.tops) ∧
      (decodeDecomposed demoTrace.L demoTrace.T demoTrace.K
          (encU32List demoTrace.roots.flatten)
          (encU32List demoTrace.sizes.flatten)
          (encU32List demoTrace.tops.flatten)
          (encBonds demoTrace.bonds)).map decompNTM = some demoTrace.ntm :=
  c3_three_formats_agree demoTrace (by decide)

/-- C7 counterexample: with no `top_n` configured anywhere (`TOP_N` unset;
the script never reads a metadata `top_n` field at all) and a present
top-sizes blob of one frame of three `u32` values, loading succeeds with the
substituted default `K = 3` instead of failing with a `FormatError`. -/
theorem c7_default_topn_cex :
    topNConfig none = 3 ∧
      loadTopSizes none 1 (encU32List [5, 2, 1]) = some [[5, 2, 1]] := by
  constructor
  · rfl
  · rfl

/-- C7 (amended): when the `top_n` configuration is absent, loading
substitutes the default `K = 3` and succeeds whenever the top-sizes blob
holds exactly `3 * T` records; no `FormatError` is raised. -/
theorem c7_default_topn (T : ℕ) (vs : List ℕ) (h1 : vs.length = 3 * T)
    (h2 : ∀ v ∈ vs, v < 2 ^ 32) :
    loadTopSizes none T (encU32List vs) = some (chunks T 3 vs) := by
  rw [loadTopSizes]
  simp only [Option.bind_eq_bind, decU32s_encU32List vs h2, Option.some_bind]
  rw [show topNConfig none = 3 from rfl, reshape, if_pos (by omega)]

/-- C7 amended witness: one frame of three recorded top sizes loads under
the default `K = 3`. -/
theorem c7_default_topn_witness :
    loadTopSizes none 1 (encU32List [5, 2, 1]) =
      some (chunks 1 3 [5, 2, 1]) :=
  c7_default_topn 1 [5, 2, 1] (by decide) (by decide)

end Percolation
